import Mathlib

/-!
Shallow embedding of the `rate` package (leaky bucket rate limiter,
`src/rate/leakybucket.go`) and proofs about it.

Modelling conventions:
* Go `time.Time` instants and `time.Duration` values are `Int` nanoseconds;
  `time.Second` is the constant `second = 1000000000`.
* Go `float64` arithmetic (`limitAsFloat`, `boostedLimit`, `maxOutput`,
  `setNextBlockTime`) is idealized as exact rational arithmetic, represented
  by the unreduced-fraction type `GoFloat` (an `Int` numerator and an `Int`
  denominator; every denominator built by the code here is positive);
  `math.Round` on the nonnegative values arising here is `goRound`, and the
  truncating `time.Duration(...)` float conversion is `goTrunc`.
* Go `uint64` values are `Nat`; every subtraction in the source is guarded by a
  clamp that keeps it from underflowing (proved below), so `Nat` subtraction
  agrees with the Go code on all reachable values.
* The injected `Clock` is modelled by passing the `now` instant to each
  operation; the mutex serializes operations, so a run is a list of operations.
-/

namespace LeakyBucket

/-- Go `time.Second` in nanoseconds. -/
def second : Int := 1000000000

/-- The exact value of a `float64` computation, kept as an unreduced fraction
so that everything is computable by evaluation.  All denominators produced by
the definitions below are positive. -/
structure GoFloat where
  num : Int
  den : Int
deriving DecidableEq

/-- `float64(n)` for an unsigned integer `n`. -/
def GoFloat.ofNat (n : Nat) : GoFloat := { num := (n : Int), den := 1 }

/-- `float64(d)` for a duration `d`. -/
def GoFloat.ofInt (n : Int) : GoFloat := { num := n, den := 1 }

/-- `float64` multiplication. -/
def GoFloat.mul (a b : GoFloat) : GoFloat :=
  { num := a.num * b.num, den := a.den * b.den }

/-- `float64` division. -/
def GoFloat.div (a b : GoFloat) : GoFloat :=
  { num := a.num * b.den, den := a.den * b.num }

/-- `float64` strict order (for positive denominators). -/
def GoFloat.lt (a b : GoFloat) : Prop := a.num * b.den < b.num * a.den

instance (a b : GoFloat) : Decidable (a.lt b) :=
  inferInstanceAs (Decidable (a.num * b.den < b.num * a.den))

/-- The Go constant `boostFactor float64 = 1.1`. -/
def boostFactor : GoFloat := { num := 11, den := 10 }

/-- Go `uint64(math.Round(x))` for the nonnegative values arising in `Take`:
round half away from zero (`floor (x + 1/2)` for `x ≥ 0`), then convert. -/
def goRound (q : GoFloat) : Nat :=
  ((2 * q.num + q.den).ediv (2 * q.den)).toNat

/-- Go `time.Duration(x)` conversion of a `float64`: truncation toward
zero. -/
def goTrunc (q : GoFloat) : Int := q.num.tdiv q.den

/-- One node of `repliesList` (`repliesEntry`): an amount handed out and the
instant at which it was handed out. -/
structure RepliesEntry where
  reply : Nat
  replied : Int
deriving DecidableEq

/-- A pending block in `takeByBlock` mode (`type block struct \x7b size uint64 \x7d`). -/
structure Block where
  size : Nat
deriving DecidableEq

/-- The state of `limiterData`.  `limitAsFloat` and `boostedLimit` are the two
derived float fields kept by the Go struct; the clock is external. -/
structure LimiterData where
  limit : Nat
  limitAsFloat : GoFloat
  boostedLimit : GoFloat
  takeByBlock : Bool
  currentBucketSize : Nat
  lastEvent : Option Int
  replies : List RepliesEntry
  blocks : List Block
  nextBlockTime : Option Int
deriving DecidableEq

/-- `repliesList.add`: prepend an entry (the list is newest first). -/
def repliesAdd (l : List RepliesEntry) (output : Nat) (now : Int) :
    List RepliesEntry :=
  { reply := output, replied := now } :: l

/-- `repliesList.lastTime`: the timestamp stored at the tail of the list
(`nil` when empty). -/
def repliesLastTime (l : List RepliesEntry) : Option Int :=
  l.getLast?.map RepliesEntry.replied

/-- `repliesList.calculateAndCut`: walk from the head (newest), summing entries
whose timestamp is after `now - second`; at the first entry at or before that
instant, cut it and everything older.  Returns the sum together with the list
that remains. -/
def calculateAndCut (l : List RepliesEntry) (now : Int) :
    Nat × List RepliesEntry :=
  match l with
  | [] => (0, [])
  | e :: rest =>
    if now - second < e.replied then
      let r := calculateAndCut rest now
      (e.reply + r.1, e :: r.2)
    else
      (0, [])

/-- `New(limit, opts...)`: a limit of `0` is coerced to `1`;
`limitAsFloat` and `boostedLimit` are derived from the coerced limit.
The `TakeByBlock()` option is the boolean argument. -/
def new (limit : Nat) (takeByBlock : Bool) : LimiterData :=
  let limit := if limit = 0 then 1 else limit
  { limit := limit
    limitAsFloat := GoFloat.ofNat limit
    boostedLimit := (GoFloat.ofNat limit).mul boostFactor
    takeByBlock := takeByBlock
    currentBucketSize := 0
    lastEvent := none
    replies := []
    blocks := []
    nextBlockTime := none }

/-- `limiterData.Add`: in block mode append a block to the queue, otherwise
increase the divisible bucket. -/
def addOp (ld : LimiterData) (chunkSize : Nat) : LimiterData :=
  if ld.takeByBlock then
    { ld with blocks := ld.blocks ++ [{ size := chunkSize }] }
  else
    { ld with currentBucketSize := ld.currentBucketSize + chunkSize }

/-- Lines 147-152 of `Take`: elapsed time since the last event, or one second
when no event has ever happened. -/
def sinceLast (ld : LimiterData) (now : Int) : Int :=
  match ld.lastEvent with
  | none => second
  | some t => now - t

/-- Lines 154-159 of `Take`: the raw float `maxOutput`. -/
def rawMaxOutput (ld : LimiterData) (now : Int) : GoFloat :=
  if sinceLast ld now < second then
    ld.boostedLimit.mul ((GoFloat.ofInt (sinceLast ld now)).div (GoFloat.ofInt second))
  else
    ld.limitAsFloat

/-- Lines 161-171 of `Take`: clamp `maxOutput` to the limit, round, clamp to
the bucket size, and force a zero to `1`. -/
def candidateOutput (ld : LimiterData) (now : Int) : Nat :=
  let m := rawMaxOutput ld now
  let m := if ld.limitAsFloat.lt m then ld.limitAsFloat else m
  let output := goRound m
  if output > ld.currentBucketSize then ld.currentBucketSize
  else if output = 0 then 1
  else output

/-- Lines 173-176 of `Take`: the trailing-second historical total, clamped to
the limit. -/
def clampedHistorical (ld : LimiterData) (now : Int) : Nat :=
  if (calculateAndCut ld.replies now).1 > ld.limit then ld.limit
  else (calculateAndCut ld.replies now).1

/-- Lines 178-181 of `Take`: reduce the candidate output so that the
trailing-second total does not pass the limit. -/
def finalOutput (ld : LimiterData) (now : Int) : Nat :=
  if clampedHistorical ld now + candidateOutput ld now > ld.limit then
    ld.limit - clampedHistorical ld now
  else
    candidateOutput ld now

/-- `limiterData.Take`, streaming path (lines 134-199).  Returns the released
amount, the wait duration, and the new state. -/
def takeStreaming (ld : LimiterData) (now : Int) : Nat × Int × LimiterData :=
  if ld.currentBucketSize = 0 then
    (0, 0, ld)
  else
    let output := finalOutput ld now
    let kept := (calculateAndCut ld.replies now).2
    if 0 < output then
      (output, 0,
        { ld with
          currentBucketSize := ld.currentBucketSize - output
          replies := repliesAdd kept output now
          lastEvent := some now })
    else
      (0,
        (match repliesLastTime kept with
         | none => second
         | some lt => second - (now - lt)),
        { ld with
          currentBucketSize := ld.currentBucketSize - output
          replies := kept
          lastEvent := some now })

/-- `limiterData.setNextBlockTime`: the raw penalty is
`knownSize / (limit / second)`, reduced by the time already served since the
oldest surviving ledger entry, floored at `1`; stores `now + penalty` as the
next block time and returns the penalty. -/
def setNextBlockTime (ld : LimiterData) (now : Int) (knownSize : GoFloat) :
    Int × LimiterData :=
  let overTime := goTrunc (knownSize.div (ld.limitAsFloat.div (GoFloat.ofInt second)))
  match repliesLastTime ld.replies with
  | none =>
    (overTime, { ld with nextBlockTime := some (now + overTime) })
  | some oldestRecordTime =>
    let durationServed := now - oldestRecordTime
    let overTime2 := overTime - durationServed
    let overTime3 := if overTime2 < 1 then 1 else overTime2
    (overTime3, { ld with nextBlockTime := some (now + overTime3) })

/-- Lines 219-244 of `doTakeByBlock`: the body after the next-block-time
gate. -/
def takeBlockBody (ld : LimiterData) (now : Int) : Nat × Int × LimiterData :=
  let pc := calculateAndCut ld.replies now
  if pc.1 ≤ ld.limit then
    match ld.blocks with
    | [] => (0, 0, { ld with replies := pc.2 })
    | b :: rest =>
      let blockSize := b.size
      let ld2 := { ld with replies := repliesAdd pc.2 blockSize now, blocks := rest }
      let totalThisSecond := blockSize + pc.1
      if totalThisSecond > ld.limit then
        (blockSize, 0, (setNextBlockTime ld2 now (GoFloat.ofNat totalThisSecond)).2)
      else
        (blockSize, 0, ld2)
  else
    let r := setNextBlockTime { ld with replies := pc.2 } now (GoFloat.ofNat pc.1)
    (0, r.1, r.2)

/-- `limiterData.doTakeByBlock` (lines 201-245). -/
def doTakeByBlock (ld : LimiterData) (now : Int) : Nat × Int × LimiterData :=
  match ld.nextBlockTime with
  | some nbt =>
    if now < nbt then (0, nbt - now, ld)
    else takeBlockBody { ld with nextBlockTime := none } now
  | none => takeBlockBody ld now

/-- `limiterData.Take`: dispatch on the mode. -/
def take (ld : LimiterData) (now : Int) : Nat × Int × LimiterData :=
  if ld.takeByBlock then doTakeByBlock ld now else takeStreaming ld now

/-- `limiterData.GetBucketSize`. -/
def getBucketSize (ld : LimiterData) : Nat := ld.currentBucketSize

/-- `limiterData.GetLimit`. -/
def getLimit (ld : LimiterData) : Nat := ld.limit

/-- `limiterData.SetLimit`: coerce `0` to `1`, refresh the derived float
fields, return the old limit. -/
def setLimit (ld : LimiterData) (nLimit : Nat) : Nat × LimiterData :=
  let nLimit := if nLimit = 0 then 1 else nLimit
  (ld.limit,
    { ld with
      limit := nLimit
      limitAsFloat := GoFloat.ofNat nLimit
      boostedLimit := (GoFloat.ofNat nLimit).mul boostFactor })

/-- One public operation of a client-driven run: an `Add` call, or a `Take`
call at the instant the (external, injected) clock then reads. -/
inductive Op where
  | add (chunkSize : Nat)
  | take (now : Int)

/-- What one `Take` call returned, together with the instant at which it was
made. -/
structure TakeEvent where
  released : Nat
  delay : Int
  time : Int
deriving DecidableEq

/-- Run a list of operations.  Returns the final state and the list of take
events, newest first. -/
def run : LimiterData → List Op → LimiterData × List TakeEvent
  | ld, [] => (ld, [])
  | ld, Op.add n :: rest => run (addOp ld n) rest
  | ld, Op.take u :: rest =>
    let tr := take ld u
    let res := run tr.2.2 rest
    (res.1, res.2 ++ [{ released := tr.1, delay := tr.2.1, time := u }])

/-- The clock driving the `Take` calls of a run is non-decreasing, starting at
or after `t`. -/
def MonoFrom : Int → List Op → Prop
  | _, [] => True
  | t, Op.add _ :: rest => MonoFrom t rest
  | t, Op.take u :: rest => t ≤ u ∧ MonoFrom u rest

instance decMonoFrom (t : Int) (ops : List Op) : Decidable (MonoFrom t ops) :=
  match ops with
  | [] => isTrue trivial
  | Op.add _ :: rest => decMonoFrom t rest
  | Op.take u :: rest => @instDecidableAnd _ _ _ (decMonoFrom u rest)

/-- The time of the last `Take` of a run (`t` when there is none). -/
def lastTakeTime : Int → List Op → Int
  | t, [] => t
  | t, Op.add _ :: rest => lastTakeTime t rest
  | _, Op.take u :: rest => lastTakeTime u rest

/-- The chunk sizes passed to `Add`, in call order. -/
def addedSizes : List Op → List Nat
  | [] => []
  | Op.add n :: rest => n :: addedSizes rest
  | Op.take _ :: rest => addedSizes rest

/-- Total amount passed to `Add` over a run. -/
def addedTotal (ops : List Op) : Nat := (addedSizes ops).sum

/-- Total amount released by the `Take` calls of a run. -/
def releasedTotal (evs : List TakeEvent) : Nat :=
  (evs.map TakeEvent.released).sum

/-- Sum of the released amounts of the take events whose instants lie in the
half-open trailing window `(T - second, T]`. -/
def windowSum (evs : List TakeEvent) (T : Int) : Nat :=
  ((evs.filter fun e => decide (T - second < e.time ∧ e.time ≤ T)).map
    TakeEvent.released).sum

/-- The ledger entries a list of take events gave rise to: one entry per event
with a positive released amount (newest first, like `repliesList`). -/
def relEntries (evs : List TakeEvent) : List RepliesEntry :=
  (evs.filter fun e => decide (0 < e.released)).map
    fun e => { reply := e.released, replied := e.time }

/-- The positive released amounts of a run in chronological (oldest-first)
order. -/
def posReleases (evs : List TakeEvent) : List Nat :=
  (evs.reverse.filter fun e => decide (0 < e.released)).map TakeEvent.released

/-- A consumer loop: call `Take`, record the result, wait out the returned
delay, call again; stop (recording the terminal call) when a call returns
`(0, 0)`.  `fuel` bounds the number of calls. -/
def drive (fuel : Nat) (ld : LimiterData) (now : Int) : List (Nat × Int) :=
  match fuel with
  | 0 => []
  | f + 1 =>
    let r := take ld now
    if r.1 = 0 ∧ r.2.1 = 0 then [(0, 0)]
    else (r.1, r.2.1) :: drive f r.2.2 (now + r.2.1)

/-- Modelled from the spec: `MostRecentTimestamp()` is described as "the
newest remaining entry's timestamp, or absent if the ledger is empty".  Since
the ledger is newest first, that is the head's timestamp. -/
def specMostRecentTimestamp (l : List RepliesEntry) : Option Int :=
  l.head?.map RepliesEntry.replied

/-! ## Basic lemmas about the pieces of `Take` -/

theorem candidateOutput_pos (ld : LimiterData) (now : Int)
    (h : ld.currentBucketSize ≠ 0) : 1 ≤ candidateOutput ld now := by
  simp only [candidateOutput]
  split_ifs <;> omega

theorem candidateOutput_le_bucket (ld : LimiterData) (now : Int)
    (h : ld.currentBucketSize ≠ 0) :
    candidateOutput ld now ≤ ld.currentBucketSize := by
  simp only [candidateOutput]
  split_ifs <;> omega

theorem clampedHistorical_le (ld : LimiterData) (now : Int) :
    clampedHistorical ld now ≤ ld.limit := by
  simp only [clampedHistorical]
  split_ifs <;> omega

theorem finalOutput_le_candidate (ld : LimiterData) (now : Int) :
    finalOutput ld now ≤ candidateOutput ld now := by
  simp only [finalOutput]
  split_ifs <;> omega

theorem finalOutput_le_bucket (ld : LimiterData) (now : Int)
    (h : ld.currentBucketSize ≠ 0) :
    finalOutput ld now ≤ ld.currentBucketSize :=
  le_trans (finalOutput_le_candidate ld now) (candidateOutput_le_bucket ld now h)

theorem hist_add_finalOutput_le (ld : LimiterData) (now : Int) :
    clampedHistorical ld now + finalOutput ld now ≤ ld.limit := by
  have h := clampedHistorical_le ld now
  simp only [finalOutput]
  split_ifs <;> omega

theorem finalOutput_pos (ld : LimiterData) (now : Int)
    (h1 : ld.currentBucketSize ≠ 0)
    (h2 : (calculateAndCut ld.replies now).1 < ld.limit) :
    1 ≤ finalOutput ld now := by
  have hc := candidateOutput_pos ld now h1
  simp only [finalOutput, clampedHistorical]
  split_ifs <;> omega

theorem finalOutput_zero_hist (ld : LimiterData) (now : Int)
    (h1 : ld.currentBucketSize ≠ 0)
    (h0 : finalOutput ld now = 0) :
    ld.limit ≤ (calculateAndCut ld.replies now).1 := by
  have hc := candidateOutput_pos ld now h1
  simp only [finalOutput, clampedHistorical] at h0
  split_ifs at h0 <;> omega

/-! ## Lemmas about `calculateAndCut` -/

theorem calculateAndCut_sum_eq (l : List RepliesEntry) (now : Int) :
    (calculateAndCut l now).1 =
      (((calculateAndCut l now).2).map RepliesEntry.reply).sum := by
  induction l with
  | nil => simp [calculateAndCut]
  | cons e rest ih =>
    simp only [calculateAndCut]
    split_ifs with h
    · simp only [List.map_cons, List.sum_cons]
      omega
    · simp

theorem calculateAndCut_kept_after (l : List RepliesEntry) (now : Int) :
    ∀ e ∈ (calculateAndCut l now).2, now - second < e.replied := by
  induction l with
  | nil => simp [calculateAndCut]
  | cons e rest ih =>
    simp only [calculateAndCut]
    split_ifs with h
    · intro x hx
      rcases List.mem_cons.mp hx with hx | hx
      · exact hx ▸ h
      · exact ih x hx
    · simp

theorem calculateAndCut_sorted (l : List RepliesEntry) (now : Int)
    (h : l.Pairwise fun a b => b.replied ≤ a.replied) :
    calculateAndCut l now =
      (((l.filter fun e => decide (now - second < e.replied)).map
          RepliesEntry.reply).sum,
       l.filter fun e => decide (now - second < e.replied)) := by
  induction l with
  | nil => simp [calculateAndCut]
  | cons e rest ih =>
    rcases List.pairwise_cons.mp h with ⟨hle, hrest⟩
    simp only [calculateAndCut]
    split_ifs with hgt
    · rw [ih hrest]
      simp [List.filter_cons, hgt]
    · have hnil : (e :: rest).filter
          (fun x => decide (now - second < x.replied)) = [] := by
        rw [List.filter_eq_nil_iff]
        intro x hx
        simp only [decide_eq_true_eq, not_lt]
        rcases List.mem_cons.mp hx with hx | hx
        · exact hx ▸ le_of_not_lt hgt
        · exact le_trans (hle x hx) (le_of_not_lt hgt)
      rw [hnil]
      simp

/-! ## Preservation lemmas -/

theorem addOp_mode (ld : LimiterData) (n : Nat) :
    (addOp ld n).takeByBlock = ld.takeByBlock := by
  simp only [addOp]; split_ifs <;> rfl

theorem addOp_limit (ld : LimiterData) (n : Nat) :
    (addOp ld n).limit = ld.limit := by
  simp only [addOp]; split_ifs <;> rfl

theorem addOp_bucket_stream (ld : LimiterData) (n : Nat)
    (h : ld.takeByBlock = false) :
    (addOp ld n).currentBucketSize = ld.currentBucketSize + n := by
  simp only [addOp, h]; rfl

theorem addOp_bucket_block (ld : LimiterData) (n : Nat)
    (h : ld.takeByBlock = true) :
    (addOp ld n).currentBucketSize = ld.currentBucketSize := by
  simp only [addOp, h]; rfl

theorem takeStreaming_mode (ld : LimiterData) (now : Int) :
    (takeStreaming ld now).2.2.takeByBlock = ld.takeByBlock := by
  simp only [takeStreaming]
  split_ifs <;> rfl

theorem takeStreaming_limit (ld : LimiterData) (now : Int) :
    (takeStreaming ld now).2.2.limit = ld.limit := by
  simp only [takeStreaming]
  split_ifs <;> rfl

theorem takeStreaming_bucket (ld : LimiterData) (now : Int) :
    (takeStreaming ld now).2.2.currentBucketSize + (takeStreaming ld now).1 =
      ld.currentBucketSize := by
  simp only [takeStreaming]
  split_ifs with h1 h2
  · simp
  · have := finalOutput_le_bucket ld now h1
    dsimp only
    omega
  · dsimp only
    omega

theorem takeStreaming_released_le (ld : LimiterData) (now : Int) :
    (takeStreaming ld now).1 ≤ ld.currentBucketSize := by
  simp only [takeStreaming]
  split_ifs with h1 h2
  · simp
  · exact finalOutput_le_bucket ld now h1
  · exact Nat.zero_le _

theorem setNextBlockTime_fields (ld : LimiterData) (now : Int) (k : GoFloat) :
    (setNextBlockTime ld now k).2.takeByBlock = ld.takeByBlock ∧
    (setNextBlockTime ld now k).2.limit = ld.limit ∧
    (setNextBlockTime ld now k).2.currentBucketSize = ld.currentBucketSize ∧
    (setNextBlockTime ld now k).2.blocks = ld.blocks ∧
    (setNextBlockTime ld now k).2.replies = ld.replies := by
  simp only [setNextBlockTime]
  cases h : repliesLastTime ld.replies <;> simp

theorem takeBlockBody_fields (ld : LimiterData) (now : Int) :
    (takeBlockBody ld now).2.2.takeByBlock = ld.takeByBlock ∧
    (takeBlockBody ld now).2.2.limit = ld.limit ∧
    (takeBlockBody ld now).2.2.currentBucketSize = ld.currentBucketSize := by
  simp only [takeBlockBody]
  split_ifs with h1
  · cases hb : ld.blocks with
    | nil => simp
    | cons b rest =>
      dsimp only
      split_ifs with h2
      · have := setNextBlockTime_fields
          { ld with
            replies := repliesAdd (calculateAndCut ld.replies now).2 b.size now
            blocks := rest } now (GoFloat.ofNat (b.size + (calculateAndCut ld.replies now).1))
        exact ⟨this.1, this.2.1, this.2.2.1⟩
      · simp
  · have := setNextBlockTime_fields
      { ld with replies := (calculateAndCut ld.replies now).2 } now
      (GoFloat.ofNat (calculateAndCut ld.replies now).1)
    exact ⟨this.1, this.2.1, this.2.2.1⟩

theorem doTakeByBlock_fields (ld : LimiterData) (now : Int) :
    (doTakeByBlock ld now).2.2.takeByBlock = ld.takeByBlock ∧
    (doTakeByBlock ld now).2.2.limit = ld.limit ∧
    (doTakeByBlock ld now).2.2.currentBucketSize = ld.currentBucketSize := by
  cases h : ld.nextBlockTime with
  | none => simp only [doTakeByBlock, h]; exact takeBlockBody_fields ld now
  | some nbt =>
    simp only [doTakeByBlock, h]
    split_ifs with h1
    · exact ⟨rfl, rfl, rfl⟩
    · exact takeBlockBody_fields { ld with nextBlockTime := none } now

theorem take_mode (ld : LimiterData) (now : Int) :
    (take ld now).2.2.takeByBlock = ld.takeByBlock := by
  simp only [take]
  split_ifs with h
  · exact (doTakeByBlock_fields ld now).1
  · exact takeStreaming_mode ld now

theorem take_limit (ld : LimiterData) (now : Int) :
    (take ld now).2.2.limit = ld.limit := by
  simp only [take]
  split_ifs with h
  · exact (doTakeByBlock_fields ld now).2.1
  · exact takeStreaming_limit ld now

theorem take_bucket_stream (ld : LimiterData) (now : Int)
    (h : ld.takeByBlock = false) :
    (take ld now).2.2.currentBucketSize + (take ld now).1 =
      ld.currentBucketSize := by
  simp only [take, h]
  exact takeStreaming_bucket ld now

theorem take_bucket_block (ld : LimiterData) (now : Int)
    (h : ld.takeByBlock = true) :
    (take ld now).2.2.currentBucketSize = ld.currentBucketSize := by
  simp only [take, h, if_true]
  exact (doTakeByBlock_fields ld now).2.2

/-! ## Run-level preservation -/

theorem run_mode (ld : LimiterData) (ops : List Op) :
    (run ld ops).1.takeByBlock = ld.takeByBlock := by
  induction ops generalizing ld with
  | nil => rfl
  | cons op rest ih =>
    cases op with
    | add n => rw [run, ih, addOp_mode]
    | take u => simp only [run]; rw [ih, take_mode]

theorem run_limit (ld : LimiterData) (ops : List Op) :
    (run ld ops).1.limit = ld.limit := by
  induction ops generalizing ld with
  | nil => rfl
  | cons op rest ih =>
    cases op with
    | add n => rw [run, ih, addOp_limit]
    | take u => simp only [run]; rw [ih, take_limit]

theorem releasedTotal_append (a b : List TakeEvent) :
    releasedTotal (a ++ b) = releasedTotal a + releasedTotal b := by
  simp [releasedTotal]

theorem run_conservation (ld : LimiterData) (ops : List Op)
    (h : ld.takeByBlock = false) :
    (run ld ops).1.currentBucketSize + releasedTotal (run ld ops).2 =
      ld.currentBucketSize + addedTotal ops := by
  induction ops generalizing ld with
  | nil => simp [run, releasedTotal, addedTotal, addedSizes]
  | cons op rest ih =>
    cases op with
    | add n =>
      simp only [run]
      rw [ih (addOp ld n) ((addOp_mode ld n).trans h),
        addOp_bucket_stream ld n h]
      simp only [addedTotal, addedSizes, List.sum_cons]
      omega
    | take u =>
      simp only [run, releasedTotal_append]
      have hc := take_bucket_stream ld u h
      have ht := ih (take ld u).2.2 ((take_mode ld u).trans h)
      simp only [releasedTotal, List.map_cons, List.map_nil, List.sum_cons,
        List.sum_nil] at ht ⊢
      have ha : addedTotal (Op.take u :: rest) = addedTotal rest := by
        simp [addedTotal, addedSizes]
      omega

theorem run_bucket_block (ld : LimiterData) (ops : List Op)
    (h : ld.takeByBlock = true) :
    (run ld ops).1.currentBucketSize = ld.currentBucketSize := by
  induction ops generalizing ld with
  | nil => rfl
  | cons op rest ih =>
    cases op with
    | add n =>
      rw [run, ih (addOp ld n) ((addOp_mode ld n).trans h),
        addOp_bucket_block ld n h]
    | take u =>
      simp only [run]
      rw [ih (take ld u).2.2 ((take_mode ld u).trans h),
        take_bucket_block ld u h]

/-! ## Block-mode FIFO invariant -/

theorem posReleases_cons_zero (evs : List TakeEvent) (e : TakeEvent)
    (h : e.released = 0) : posReleases (e :: evs) = posReleases evs := by
  simp [posReleases, List.filter_append, h]

theorem posReleases_cons_pos (evs : List TakeEvent) (e : TakeEvent)
    (h : 0 < e.released) :
    posReleases (e :: evs) = posReleases evs ++ [e.released] := by
  simp [posReleases, List.filter_append, List.filter_cons, h]

/-- `takeBlockBody` either releases nothing and leaves the queue alone, or it
dequeues exactly the head block and returns its whole size with a zero wait. -/
theorem takeBlockBody_blocks (ld : LimiterData) (now : Int) :
    ((takeBlockBody ld now).1 = 0 ∧ (takeBlockBody ld now).2.2.blocks = ld.blocks)
    ∨ (∃ b rest, ld.blocks = b :: rest ∧ (takeBlockBody ld now).1 = b.size ∧
        (takeBlockBody ld now).2.1 = 0 ∧ (takeBlockBody ld now).2.2.blocks = rest) := by
  simp only [takeBlockBody]
  split_ifs with h1
  · cases hb : ld.blocks with
    | nil => exact Or.inl ⟨rfl, by simp [hb]⟩
    | cons b rest =>
      refine Or.inr ⟨b, rest, rfl, ?_⟩
      dsimp only
      split_ifs with h2
      · exact ⟨rfl, rfl,
          (setNextBlockTime_fields _ now _).2.2.2.1⟩
      · exact ⟨rfl, rfl, rfl⟩
  · exact Or.inl ⟨rfl, (setNextBlockTime_fields _ now _).2.2.2.1⟩

theorem doTakeByBlock_blocks (ld : LimiterData) (now : Int) :
    ((doTakeByBlock ld now).1 = 0 ∧ (doTakeByBlock ld now).2.2.blocks = ld.blocks)
    ∨ (∃ b rest, ld.blocks = b :: rest ∧ (doTakeByBlock ld now).1 = b.size ∧
        (doTakeByBlock ld now).2.1 = 0 ∧ (doTakeByBlock ld now).2.2.blocks = rest) := by
  cases h : ld.nextBlockTime with
  | none => simpa only [doTakeByBlock, h] using takeBlockBody_blocks ld now
  | some nbt =>
    simp only [doTakeByBlock, h]
    split_ifs with h1
    · exact Or.inl ⟨rfl, rfl⟩
    · exact takeBlockBody_blocks { ld with nextBlockTime := none } now

/-- The invariant tying a block-mode state to the run that produced it:
the queue is the suffix of the added sizes after position `k`, the positive
released amounts are (in order) the positive added sizes before position `k`,
and every positive release came with a zero wait. -/
structure BInv (s : LimiterData) (evs : List TakeEvent) (added : List Nat) :
    Prop where
  mode : s.takeByBlock = true
  fifo : ∃ k, k ≤ added.length ∧
    s.blocks = (added.drop k).map Block.mk ∧
    posReleases evs = (added.take k).filter fun n => decide (0 < n)
  posdelay : ∀ e ∈ evs, 0 < e.released → e.delay = 0

theorem binv_add (s : LimiterData) (evs : List TakeEvent) (added : List Nat)
    (n : Nat) (h : BInv s evs added) : BInv (addOp s n) evs (added ++ [n]) := by
  obtain ⟨k, hk, hblocks, hpos⟩ := h.fifo
  refine ⟨(addOp_mode s n).trans h.mode, ⟨k, ?_, ?_, ?_⟩, h.posdelay⟩
  · simp only [List.length_append, List.length_singleton]; omega
  · simp only [addOp, h.mode, if_true]
    rw [List.drop_append_of_le_length hk, List.map_append, hblocks]
    rfl
  · rw [List.take_append_of_le_length hk, hpos]

theorem binv_take (s : LimiterData) (evs : List TakeEvent) (added : List Nat)
    (u : Int) (h : BInv s evs added) :
    BInv (take s u).2.2
      ({ released := (take s u).1, delay := (take s u).2.1, time := u } :: evs)
      added := by
  obtain ⟨k, hk, hblocks, hpos⟩ := h.fifo
  have hdisp : take s u = doTakeByBlock s u := by simp [take, h.mode]
  rcases doTakeByBlock_blocks s u with ⟨hr, hb⟩ | ⟨b, rest, hcons, hr, hd, hb⟩
  · refine ⟨(take_mode s u).trans h.mode, ⟨k, hk, ?_, ?_⟩, ?_⟩
    · rw [hdisp, hb, hblocks]
    · rw [posReleases_cons_zero _ _ (by rw [hdisp]; exact hr), hpos]
    · intro e he hpe
      rcases List.mem_cons.mp he with he | he
      · exfalso
        rw [he] at hpe
        dsimp only at hpe
        rw [hdisp, hr] at hpe
        exact absurd hpe (lt_irrefl 0)
      · exact h.posdelay e he hpe
  · have hklt : k < added.length := by
      by_contra hge
      have : added.drop k = [] := List.drop_eq_nil_of_le (by omega)
      rw [this] at hblocks
      simp [hcons] at hblocks
    have hdropk : added.drop k = added[k] :: added.drop (k + 1) :=
      List.drop_eq_getElem_cons hklt
    have hbsize : b.size = added[k] ∧ rest = (added.drop (k + 1)).map Block.mk := by
      rw [hcons, hdropk, List.map_cons] at hblocks
      exact ⟨by rw [List.cons.injEq] at hblocks; rw [hblocks.1], by
        rw [List.cons.injEq] at hblocks; exact hblocks.2⟩
    have htake : added.take (k + 1) = added.take k ++ [added[k]] := by
      rw [List.take_succ, List.getElem?_eq_getElem hklt]
      rfl
    refine ⟨(take_mode s u).trans h.mode, ⟨k + 1, hklt, ?_, ?_⟩, ?_⟩
    · rw [hdisp, hb, hbsize.2]
    · rw [htake, List.filter_append]
      by_cases hz : 0 < b.size
      · rw [posReleases_cons_pos _ _ (by dsimp only; rw [hdisp, hr]; exact hz),
          hpos]
        have hzk : (0 < added[k]) = True := by
          rw [← hbsize.1]; simp [hz]
        simp only [List.filter_cons, decide_eq_true_eq, hzk, if_true]
        rw [hdisp, hr, hbsize.1]
        simp
      · have hz0 : b.size = 0 := by omega
        rw [posReleases_cons_zero _ _ (by dsimp only; rw [hdisp, hr]; exact hz0),
          hpos]
        have hzk : (0 < added[k]) = False := by
          rw [← hbsize.1]; simp; omega
        simp [List.filter_cons, hzk]
    · intro e he hpe
      rcases List.mem_cons.mp he with he | he
      · rw [he]; rw [he, hdisp] at hpe; rw [hdisp, hd]
      · exact h.posdelay e he hpe

theorem binv_run (s : LimiterData) (evs : List TakeEvent) (added : List Nat)
    (ops : List Op) (h : BInv s evs added) :
    BInv (run s ops).1 ((run s ops).2 ++ evs) (added ++ addedSizes ops) := by
  induction ops generalizing s evs added with
  | nil => simpa [run, addedSizes] using h
  | cons op rest ih =>
    cases op with
    | add n =>
      have := ih (addOp s n) evs (added ++ [n]) (binv_add s evs added n h)
      rw [run]
      simpa [addedSizes, List.append_assoc] using this
    | take u =>
      have := ih (take s u).2.2
        ({ released := (take s u).1, delay := (take s u).2.1, time := u } :: evs)
        added (binv_take s evs added u h)
      simp only [run, addedSizes]
      simpa [List.append_assoc] using this

/-! ## Sliding-window lemmas for streaming mode -/

theorem windowSum_cons (e : TakeEvent) (evs : List TakeEvent) (T : Int) :
    windowSum (e :: evs) T =
      (if T - second < e.time ∧ e.time ≤ T then e.released else 0) +
        windowSum evs T := by
  simp only [windowSum, List.filter_cons]
  by_cases hP : T - second < e.time ∧ e.time ≤ T <;> simp [hP]

theorem relEntries_cons_zero (e : TakeEvent) (evs : List TakeEvent)
    (h : e.released = 0) : relEntries (e :: evs) = relEntries evs := by
  simp [relEntries, List.filter_cons, h]

theorem relEntries_cons_pos (e : TakeEvent) (evs : List TakeEvent)
    (h : 0 < e.released) :
    relEntries (e :: evs) =
      { reply := e.released, replied := e.time } :: relEntries evs := by
  simp [relEntries, List.filter_cons, h]

theorem relEntries_sorted (evs : List TakeEvent)
    (h : evs.Pairwise fun a b => b.time ≤ a.time) :
    (relEntries evs).Pairwise fun a b => b.replied ≤ a.replied := by
  have h2 := h.filter fun e => decide (0 < e.released)
  rw [relEntries, List.pairwise_map]
  exact h2

theorem windowSum_relEntries (evs : List TakeEvent) (u : Int)
    (h : ∀ e ∈ evs, e.time ≤ u) :
    windowSum evs u =
      (((relEntries evs).filter fun x => decide (u - second < x.replied)).map
        RepliesEntry.reply).sum := by
  induction evs with
  | nil => simp [windowSum, relEntries]
  | cons e rest ih =>
    have he : e.time ≤ u := h e (List.mem_cons_self e rest)
    have hr : ∀ x ∈ rest, x.time ≤ u := fun x hx => h x (List.mem_cons_of_mem e hx)
    rw [windowSum_cons]
    by_cases hp : 0 < e.released
    · rw [relEntries_cons_pos e rest hp, List.filter_cons]
      simp only [decide_eq_true_eq]
      by_cases hin : u - second < e.time
      · simp [hin, he, ih hr]
      · simp [hin, ih hr]
    · have hz : e.released = 0 := by omega
      rw [relEntries_cons_zero e rest hz, ih hr, hz]
      split_ifs <;> omega

theorem windowSum_mono_window (evs : List TakeEvent) (u T : Int)
    (h : ∀ e ∈ evs, e.time ≤ u) (hT : u ≤ T) :
    windowSum evs T ≤ windowSum evs u := by
  induction evs with
  | nil => simp [windowSum]
  | cons e rest ih =>
    have he : e.time ≤ u := h e (List.mem_cons_self e rest)
    have hrest := ih fun x hx => h x (List.mem_cons_of_mem e hx)
    rw [windowSum_cons, windowSum_cons]
    split_ifs with h1 h2 <;> omega

theorem filter_replied_subsume (l : List RepliesEntry) (c u : Int)
    (h : c ≤ u) :
    (l.filter fun e => decide (c - second < e.replied)).filter
        (fun e => decide (u - second < e.replied)) =
      l.filter fun e => decide (u - second < e.replied) := by
  induction l with
  | nil => rfl
  | cons e rest ih =>
    by_cases h1 : u - second < e.replied
    · have h2 : c - second < e.replied := by omega
      simp [List.filter_cons, h1, h2, ih]
    · by_cases h2 : c - second < e.replied <;>
        simp [List.filter_cons, h1, h2, ih]

/-- The invariant tying a streaming-mode state to the run that produced it:
all event times are at most `t`, the events are newest first, the replies
ledger is the positive-release history filtered at some past prune instant,
and every trailing one-second window of the history sums to at most the
limit. -/
structure SInv (s : LimiterData) (evs : List TakeEvent) (t : Int) : Prop where
  mode : s.takeByBlock = false
  times_le : ∀ e ∈ evs, e.time ≤ t
  sorted : evs.Pairwise fun a b => b.time ≤ a.time
  replies_eq : ∃ c, c ≤ t ∧
    s.replies = (relEntries evs).filter fun e => decide (c - second < e.replied)
  window : ∀ T, windowSum evs T ≤ s.limit

theorem sinv_add (s : LimiterData) (evs : List TakeEvent) (t : Int) (n : Nat)
    (h : SInv s evs t) : SInv (addOp s n) evs t := by
  refine ⟨(addOp_mode s n).trans h.mode, h.times_le, h.sorted, ?_, ?_⟩
  · obtain ⟨c, hc, hr⟩ := h.replies_eq
    exact ⟨c, hc, by rw [addOp, h.mode]; simpa using hr⟩
  · intro T
    rw [addOp_limit]
    exact h.window T

theorem sinv_take (s : LimiterData) (evs : List TakeEvent) (t u : Int)
    (h : SInv s evs t) (htu : t ≤ u) :
    SInv (take s u).2.2
      ({ released := (take s u).1, delay := (take s u).2.1, time := u } :: evs)
      u := by
  have hdisp : take s u = takeStreaming s u := by simp [take, h.mode]
  obtain ⟨c, hcle, hrepl⟩ := h.replies_eq
  have htimes_le : ∀ e ∈ evs, e.time ≤ u := fun e he =>
    le_trans (h.times_le e he) htu
  have hsorted' :
      ({ released := (take s u).1, delay := (take s u).2.1, time := u } ::
        evs).Pairwise fun a b => b.time ≤ a.time :=
    List.pairwise_cons.mpr ⟨fun b hb => htimes_le b hb, h.sorted⟩
  have htle' : ∀ e ∈
      ({ released := (take s u).1, delay := (take s u).2.1, time := u } :: evs),
      e.time ≤ u := by
    intro e he
    rcases List.mem_cons.mp he with he | he
    · rw [he]
    · exact htimes_le e he
  by_cases hb : s.currentBucketSize = 0
  · have htk : takeStreaming s u = (0, 0, s) := by
      simp [takeStreaming, hb]
    refine ⟨?_, htle', hsorted', ?_, ?_⟩
    · rw [hdisp, htk]; exact h.mode
    · refine ⟨c, hcle.trans htu, ?_⟩
      rw [hdisp, htk]
      dsimp only
      rw [relEntries_cons_zero _ _ rfl]
      exact hrepl
    · intro T
      rw [hdisp, htk, windowSum_cons]
      dsimp only
      have := h.window T
      split_ifs <;> omega
  · have hsorted_rep : s.replies.Pairwise fun a b => b.replied ≤ a.replied := by
      rw [hrepl]
      exact (relEntries_sorted evs h.sorted).filter _
    have hcc := calculateAndCut_sorted s.replies u hsorted_rep
    have hkept : (calculateAndCut s.replies u).2 =
        (relEntries evs).filter fun e => decide (u - second < e.replied) := by
      rw [hcc, hrepl]
      exact filter_replied_subsume _ c u (hcle.trans htu)
    have hH : (calculateAndCut s.replies u).1 = windowSum evs u := by
      rw [hcc]
      dsimp only
      rw [hrepl, filter_replied_subsume _ c u (hcle.trans htu)]
      exact (windowSum_relEntries evs u htimes_le).symm
    have hHle : (calculateAndCut s.replies u).1 ≤ s.limit := by
      rw [hH]; exact h.window u
    have hch : clampedHistorical s u = (calculateAndCut s.replies u).1 := by
      rw [clampedHistorical, if_neg (by omega)]
    have hbound : (calculateAndCut s.replies u).1 + finalOutput s u ≤
        s.limit := by
      have hb2 := hist_add_finalOutput_le s u
      rw [hch] at hb2
      exact hb2
    by_cases ho : 0 < finalOutput s u
    · have htk : takeStreaming s u = (finalOutput s u, 0,
        { s with
          currentBucketSize := s.currentBucketSize - finalOutput s u
          replies := repliesAdd (calculateAndCut s.replies u).2
            (finalOutput s u) u
          lastEvent := some u }) := by
        rw [takeStreaming, if_neg hb]
        simp only [ho, if_pos]
      refine ⟨?_, htle', hsorted', ?_, ?_⟩
      · rw [hdisp, htk]; exact h.mode
      · refine ⟨u, le_refl u, ?_⟩
        rw [hdisp, htk]
        dsimp only
        rw [relEntries_cons_pos _ _ ho, List.filter_cons,
          if_pos (by simp only [decide_eq_true_eq, second]; omega), hkept]
        rfl
      · intro T
        rw [hdisp, htk, windowSum_cons]
        dsimp only
        split_ifs with hin
        · have hmono := windowSum_mono_window evs u T htimes_le hin.2
          rw [← hH] at hmono
          omega
        · have := h.window T
          omega
    · have h1 : (takeStreaming s u).1 = 0 := by
        simp only [takeStreaming]
        rw [if_neg hb, if_neg ho]
      have h2 : (takeStreaming s u).2.2 =
          { s with
            currentBucketSize := s.currentBucketSize - finalOutput s u
            replies := (calculateAndCut s.replies u).2
            lastEvent := some u } := by
        simp only [takeStreaming]
        rw [if_neg hb, if_neg ho]
      refine ⟨?_, htle', hsorted', ?_, ?_⟩
      · rw [hdisp, h2]; exact h.mode
      · refine ⟨u, le_refl u, ?_⟩
        rw [hdisp, h1, h2]
        dsimp only
        rw [relEntries_cons_zero _ _ rfl]
        exact hkept
      · intro T
        rw [hdisp, h1, h2, windowSum_cons]
        dsimp only
        have := h.window T
        split_ifs <;> omega

theorem sinv_run (s : LimiterData) (evs : List TakeEvent) (t : Int)
    (ops : List Op) (h : SInv s evs t) (hm : MonoFrom t ops) :
    SInv (run s ops).1 ((run s ops).2 ++ evs) (lastTakeTime t ops) := by
  induction ops generalizing s evs t with
  | nil => simpa [run, lastTakeTime] using h
  | cons op rest ih =>
    cases op with
    | add n =>
      have := ih (addOp s n) evs t (sinv_add s evs t n h) hm
      simpa [run, lastTakeTime] using this
    | take u =>
      obtain ⟨h1, h2⟩ : t ≤ u ∧ MonoFrom u rest := hm
      have := ih (take s u).2.2
        ({ released := (take s u).1, delay := (take s u).2.1, time := u } :: evs)
        u (sinv_take s evs t u h h1) h2
      simp only [run, lastTakeTime]
      simpa [List.append_assoc] using this

/-! ## Additional helper lemmas -/

/-- On a non-empty bucket, the streaming `Take` either hands out at least one
unit, or hands out nothing with a strictly positive wait. -/
theorem takeStreaming_progress (s : LimiterData) (now : Int)
    (h2 : s.currentBucketSize ≠ 0) (h3 : 1 ≤ s.limit) :
    1 ≤ (takeStreaming s now).1 ∨
      ((takeStreaming s now).1 = 0 ∧ 0 < (takeStreaming s now).2.1) := by
  by_cases ho : 0 < finalOutput s now
  · left
    simp only [takeStreaming]
    rw [if_neg h2, if_pos ho]
    exact ho
  · right
    have hz : finalOutput s now = 0 := by omega
    have hH := finalOutput_zero_hist s now h2 hz
    have hsum := calculateAndCut_sum_eq s.replies now
    have hne : (calculateAndCut s.replies now).2 ≠ [] := by
      intro hnil
      rw [hnil] at hsum
      simp at hsum
      omega
    have hlast := List.getLast?_eq_getLast_of_ne_nil hne
    have hmem : (calculateAndCut s.replies now).2.getLast hne ∈
        (calculateAndCut s.replies now).2 := List.getLast_mem hne
    have hafter := calculateAndCut_kept_after s.replies now _ hmem
    have hlt : repliesLastTime (calculateAndCut s.replies now).2 =
        some ((calculateAndCut s.replies now).2.getLast hne).replied := by
      rw [repliesLastTime, hlast]
      rfl
    constructor
    · simp only [takeStreaming]
      rw [if_neg h2, if_neg ho]
    · simp only [takeStreaming]
      rw [if_neg h2, if_neg ho]
      dsimp only
      rw [hlt]
      show (0 : Int) < second -
        (now - ((calculateAndCut s.replies now).2.getLast hne).replied)
      omega

/-! ## C1: streaming-mode rate ceiling -/

/-- C1: for every run of `Add`/`Take` calls on a streaming-mode limiter with a
fixed configured limit `L`, driven by a non-decreasing clock, and for every
instant `T`, the total amount released by the `Take` calls whose instants lie
in the trailing window `(T - second, T]` is at most `L`. -/
theorem streaming_rate_ceiling (L : Nat) (hL : 0 < L) (t0 : Int)
    (ops : List Op) (hm : MonoFrom t0 ops) (T : Int) :
    windowSum (run (new L false) ops).2 T ≤ L := by
  have hinit : SInv (new L false) [] t0 := by
    refine ⟨rfl, by simp, List.Pairwise.nil,
      ⟨t0, le_refl t0, by simp [relEntries, new]⟩, ?_⟩
    intro T'
    simp [windowSum]
  have hrun := sinv_run (new L false) [] t0 ops hinit hm
  have hw := hrun.window T
  rw [List.append_nil, run_limit] at hw
  have hlim : (new L false).limit = L := by
    simp only [new]
    split_ifs with h0 <;> omega
  rw [hlim] at hw
  exact hw

/-- Witness for C1 at a concrete run. -/
theorem streaming_rate_ceiling_witness :
    0 < 2 ∧ MonoFrom 0 [Op.add 3, Op.take 0, Op.take 500000000] ∧
      windowSum (run (new 2 false) [Op.add 3, Op.take 0, Op.take 500000000]).2
        700000000 ≤ 2 :=
  ⟨by decide, by decide,
    streaming_rate_ceiling 2 (by decide) 0 _ (by decide) 700000000⟩

/-! ## C2: conservation in streaming mode -/

/-- C2: after any run in streaming mode, the bucket size plus the total
released equals the total added (so the bucket is total added minus total
released, with no underflow), and no single `Take` ever releases more than the
bucket held when the call started. -/
theorem streaming_conservation (L : Nat) (ops : List Op) :
    getBucketSize (run (new L false) ops).1 +
        releasedTotal (run (new L false) ops).2 = addedTotal ops ∧
      ∀ (s : LimiterData) (now : Int), s.takeByBlock = false →
        (take s now).1 ≤ s.currentBucketSize := by
  constructor
  · have h := run_conservation (new L false) ops rfl
    simpa [getBucketSize, new] using h
  · intro s now hmode
    simp only [take, hmode]
    simpa using takeStreaming_released_le s now

/-- Witness for C2 at a concrete run and a concrete call. -/
theorem streaming_conservation_witness :
    getBucketSize (run (new 100 false) [Op.add 5, Op.take 0]).1 +
        releasedTotal (run (new 100 false) [Op.add 5, Op.take 0]).2 =
      addedTotal [Op.add 5, Op.take 0] ∧
      (take (addOp (new 100 false) 5) 0).1 ≤
        (addOp (new 100 false) 5).currentBucketSize :=
  ⟨(streaming_conservation 100 [Op.add 5, Op.take 0]).1,
   (streaming_conservation 100 [Op.add 5, Op.take 0]).2
     (addOp (new 100 false) 5) 0 rfl⟩

/-! ## C10: block mode never touches the divisible bucket -/

/-- C10: in block-preserving mode `Add` only enqueues a block and `Take` only
dequeues, so `GetBucketSize` is `0` after every run. -/
theorem block_bucket_always_zero (L : Nat) (ops : List Op) :
    getBucketSize (run (new L true) ops).1 = 0 := by
  rw [getBucketSize, run_bucket_block (new L true) ops rfl]
  rfl

/-! ## C5: block atomicity -/

/-- C5: in block mode the positive released amounts of a run are exactly the
positive sizes of a prefix of the `Add`-ed blocks, in FIFO order (never split,
never reordered); the queue holds the remaining suffix; and every positive
release is handed out whole with a zero wait in its own call. -/
theorem block_atomicity (L : Nat) (ops : List Op) :
    ∃ k, k ≤ (addedSizes ops).length ∧
      posReleases (run (new L true) ops).2 =
        ((addedSizes ops).take k).filter (fun n => decide (0 < n)) ∧
      (run (new L true) ops).1.blocks =
        ((addedSizes ops).drop k).map Block.mk ∧
      ∀ e ∈ (run (new L true) ops).2, 0 < e.released → e.delay = 0 := by
  have hinit : BInv (new L true) [] [] := by
    refine ⟨rfl, ⟨0, by simp, rfl, rfl⟩, by simp⟩
  have h := binv_run (new L true) [] [] ops hinit
  obtain ⟨k, hk, hb, hp⟩ := h.fifo
  have hd := h.posdelay
  simp only [List.nil_append, List.append_nil] at hk hb hp hd
  exact ⟨k, hk, hp, hb, hd⟩

/-! ## C3: block-mode scenario -/

/-- C3 counterexample: on a block-mode limiter with limit 100, after `Add 200`
and `Add 10`, the first `Take` at instant `0` returns `(200, 0)`, but the
immediate second `Take` at the same instant returns a wait of two seconds, not
the 1.5 seconds the claim states. -/
theorem block_scenario_cex :
    (run (new 100 true) [Op.add 200, Op.add 10, Op.take 0, Op.take 0]).2 =
      [{ released := 0, delay := 2000000000, time := 0 },
       { released := 200, delay := 0, time := 0 }] ∧
      (2000000000 : Int) ≠ 1500000000 := by
  exact ⟨by decide, by decide⟩

/-- C3 amended: the first `Take` returns `(200, 0)`, the immediate second
`Take` returns `(0, 2s)`, and a `Take` performed exactly after waiting those
two seconds returns `(10, 0)`. -/
theorem block_scenario_amended :
    (run (new 100 true)
        [Op.add 200, Op.add 10, Op.take 0, Op.take 0,
          Op.take 2000000000]).2 =
      [{ released := 10, delay := 0, time := 2000000000 },
       { released := 0, delay := 2000000000, time := 0 },
       { released := 200, delay := 0, time := 0 }] := by
  decide

/-! ## C9: drip scenario at the coerced minimum limit -/

/-- C9 counterexample: the consumer loop on a limit-0 (coerced to 1)
streaming limiter funded with 10 units sees exactly 9 non-trivial waits, not
the 19 the claim states. -/
theorem drip_scenario_cex :
    ((drive 30 (addOp (new 0 false) 10) 0).filter
        (fun p => decide (p.1 = 0 ∧ p.2 ≠ 0))).length = 9 ∧
      (9 : Nat) ≠ 19 := by
  exact ⟨by decide, by decide⟩

/-- C9 amended: the consumer loop makes exactly 20 `Take` calls (including the
terminal `(0, 0)` one), releases 10 units in total, and sees exactly 9
non-trivial waits, each of exactly one second. -/
theorem drip_scenario_amended :
    (drive 30 (addOp (new 0 false) 10) 0).length = 20 ∧
      ((drive 30 (addOp (new 0 false) 10) 0).map Prod.fst).sum = 10 ∧
      ((drive 30 (addOp (new 0 false) 10) 0).filter
          (fun p => decide (p.1 = 0 ∧ p.2 ≠ 0))) =
        List.replicate 9 ((0 : Nat), second) ∧
      (drive 30 (addOp (new 0 false) 10) 0).getLast? =
        some ((0 : Nat), (0 : Int)) := by
  refine ⟨by decide, by decide, by decide, by decide⟩

/-! ## C6: forward progress in streaming mode -/

/-- C6 counterexample: a reachable streaming state (limit 100, `Add 200`,
`Take` at instant 0) has a non-empty bucket and a clock that has advanced by
0.1s since the last event, yet the next `Take` releases nothing, because the
trailing-second window is already at the limit. -/
theorem forward_progress_cex :
    (run (new 100 false) [Op.add 200, Op.take 0]).1.currentBucketSize = 100 ∧
      (run (new 100 false) [Op.add 200, Op.take 0]).1.lastEvent = some 0 ∧
      ((0 : Int) < 100000000 - 0) ∧
      (take (run (new 100 false) [Op.add 200, Op.take 0]).1 100000000).1 =
        0 := by
  refine ⟨by decide, by decide, by decide, by decide⟩

/-- C6 amended: if additionally the trailing-second total already released
(as computed by the pruning query) is strictly below the limit, then a `Take`
on a non-empty bucket with an advanced clock releases at least one unit. -/
theorem forward_progress_amended (s : LimiterData) (now : Int)
    (h1 : s.takeByBlock = false) (h2 : s.currentBucketSize ≠ 0)
    (h3 : 1 ≤ s.limit) (h4 : 0 < sinceLast s now)
    (h5 : (calculateAndCut s.replies now).1 < s.limit) :
    1 ≤ (take s now).1 := by
  have hf := finalOutput_pos s now h2 h5
  simp only [take, h1, Bool.false_eq_true, if_false, takeStreaming]
  rw [if_neg h2, if_pos (by omega)]
  exact hf

/-- Witness for the amended C6 at a concrete reachable state. -/
theorem forward_progress_amended_witness :
    (run (new 100 false) [Op.add 200, Op.take 0]).1.takeByBlock = false ∧
      (run (new 100 false) [Op.add 200, Op.take 0]).1.currentBucketSize ≠ 0 ∧
      1 ≤ (run (new 100 false) [Op.add 200, Op.take 0]).1.limit ∧
      0 < sinceLast (run (new 100 false) [Op.add 200, Op.take 0]).1
        1500000000 ∧
      (calculateAndCut (run (new 100 false) [Op.add 200, Op.take 0]).1.replies
          1500000000).1 <
        (run (new 100 false) [Op.add 200, Op.take 0]).1.limit ∧
      1 ≤ (take (run (new 100 false) [Op.add 200, Op.take 0]).1
        1500000000).1 :=
  ⟨by decide, by decide, by decide, by decide, by decide,
    forward_progress_amended _ 1500000000 (by decide) (by decide) (by decide)
      (by decide) (by decide)⟩

/-! ## C8: no silent zero in streaming mode -/

/-- C8: on any streaming-mode state with a non-empty bucket and a positive
limit (as every reachable state has), `Take` never returns a zero release
together with a zero wait: it releases at least one unit, or reports a
strictly positive wait. -/
theorem no_silent_zero (s : LimiterData) (now : Int)
    (h1 : s.takeByBlock = false) (h2 : s.currentBucketSize ≠ 0)
    (h3 : 1 ≤ s.limit) :
    1 ≤ (take s now).1 ∨
      ((take s now).1 = 0 ∧ 0 < (take s now).2.1) := by
  have hdisp : take s now = takeStreaming s now := by simp [take, h1]
  rw [hdisp]
  exact takeStreaming_progress s now h2 h3

/-- Witness for C8 at a concrete reachable state whose window is full. -/
theorem no_silent_zero_witness :
    (run (new 100 false) [Op.add 200, Op.take 0]).1.takeByBlock = false ∧
      (run (new 100 false) [Op.add 200, Op.take 0]).1.currentBucketSize ≠ 0 ∧
      1 ≤ (run (new 100 false) [Op.add 200, Op.take 0]).1.limit ∧
      (1 ≤ (take (run (new 100 false) [Op.add 200, Op.take 0]).1
          100000000).1 ∨
        ((take (run (new 100 false) [Op.add 200, Op.take 0]).1
            100000000).1 = 0 ∧
          0 < (take (run (new 100 false) [Op.add 200, Op.take 0]).1
            100000000).2.1)) :=
  ⟨by decide, by decide, by decide,
    no_silent_zero _ 100000000 (by decide) (by decide) (by decide)⟩

/-! ## C4: the zero-release wait formula -/

theorem calculateAndCut_kept_subset (l : List RepliesEntry) (now : Int) :
    ∀ e ∈ (calculateAndCut l now).2, e ∈ l := by
  induction l with
  | nil => simp [calculateAndCut]
  | cons e rest ih =>
    simp only [calculateAndCut]
    split_ifs with h
    · intro x hx
      rcases List.mem_cons.mp hx with hx | hx
      · exact hx ▸ List.mem_cons_self e rest
      · exact List.mem_cons_of_mem e (ih x hx)
    · simp

theorem calculateAndCut_kept_pairwise (l : List RepliesEntry) (now : Int)
    (h : l.Pairwise fun a b => b.replied ≤ a.replied) :
    ((calculateAndCut l now).2).Pairwise fun a b => b.replied ≤ a.replied := by
  induction l with
  | nil => simp [calculateAndCut]
  | cons e rest ih =>
    rcases List.pairwise_cons.mp h with ⟨hle, hrest⟩
    simp only [calculateAndCut]
    split_ifs with hgt
    · exact List.pairwise_cons.mpr
        ⟨fun b hb => hle b (calculateAndCut_kept_subset rest now b hb),
          ih hrest⟩
    · simp

/-- In a newest-first (non-increasing timestamp) list, the last element's
timestamp is the oldest one. -/
theorem sorted_oldest_le (x : RepliesEntry) :
    ∀ (l : List RepliesEntry),
      (l.Pairwise fun a b => b.replied ≤ a.replied) →
      l.getLast? = some x → ∀ e ∈ l, x.replied ≤ e.replied := by
  intro l
  induction l with
  | nil => intro _ hx; simp at hx
  | cons e rest ih =>
    intro h hx f hf
    cases hr : rest with
    | nil =>
      subst hr
      have hex : e = x := by
        have : (e :: ([] : List RepliesEntry)).getLast? = some e := rfl
        rw [this] at hx
        exact Option.some.inj hx
      rcases List.mem_cons.mp hf with hf | hf
      · rw [hex] at hf; rw [hf]
      · simp at hf
    | cons r t =>
      subst hr
      have hx' : (r :: t).getLast? = some x := by
        rw [← List.getLast?_cons_cons (a := e)]
        exact hx
      have hrest := (List.pairwise_cons.mp h).2
      have hxmem : x ∈ r :: t := by
        obtain ⟨hne, hxeq⟩ :=
          List.mem_getLast?_eq_getLast (l := r :: t) (x := x) hx'
        rw [hxeq]
        exact List.getLast_mem hne
      rcases List.mem_cons.mp hf with hf | hf
      · rw [hf]
        exact (List.pairwise_cons.mp h).1 x hxmem
      · exact ih hrest hx' f hf

/-- The state reached by the C4 scenario: limit 10, a release of 5 at instant
0, then releases of 2, 1, 1, 1 at instants 0.2s, 0.3s, 0.4s, 0.5s, filling the
trailing window. -/
def c4State : LimiterData :=
  (run (new 10 false)
    [Op.add 5, Op.take 0, Op.add 100, Op.take 200000000, Op.take 300000000,
      Op.take 400000000, Op.take 500000000]).1

/-- C4 counterexample: at instant 0.6s the bucket is non-empty and `Take`
releases nothing; the returned wait is 0.4s, namely one second minus the
elapsed time since the OLDEST remaining entry (timestamp 0), not the 0.9s
that one second minus the elapsed time since the newest remaining entry
(timestamp 0.5s) would give; and the ledger accessor used returns the oldest
remaining timestamp, not the newest. -/
theorem zero_release_wait_newest_cex :
    c4State.currentBucketSize ≠ 0 ∧
      (take c4State 600000000).1 = 0 ∧
      (take c4State 600000000).2.1 = 400000000 ∧
      specMostRecentTimestamp (calculateAndCut c4State.replies 600000000).2 =
        some 500000000 ∧
      second - (600000000 - 500000000) = 900000000 ∧
      (400000000 : Int) ≠ 900000000 ∧
      repliesLastTime (calculateAndCut c4State.replies 600000000).2 =
        some 0 := by
  refine ⟨by decide, by decide, by decide, by decide, by decide, by decide,
    by decide⟩

/-- C4 amended: when a streaming `Take` on a non-empty bucket releases zero,
the wait is one second minus the elapsed time since the OLDEST remaining
sliding-window entry (one second if the window is empty); the accessor
`lastTime` used for this returns the oldest remaining entry's timestamp. -/
theorem zero_release_wait_oldest (s : LimiterData) (now : Int)
    (h1 : s.takeByBlock = false) (h2 : s.currentBucketSize ≠ 0)
    (hs : s.replies.Pairwise fun a b => b.replied ≤ a.replied)
    (h3 : (take s now).1 = 0) :
    (take s now).2.1 =
      (match repliesLastTime (calculateAndCut s.replies now).2 with
       | none => second
       | some ts => second - (now - ts)) ∧
      ∀ ts, repliesLastTime (calculateAndCut s.replies now).2 = some ts →
        ∀ e ∈ (calculateAndCut s.replies now).2, ts ≤ e.replied := by
  have hdisp : take s now = takeStreaming s now := by simp [take, h1]
  have ho : ¬ 0 < finalOutput s now := by
    intro hpos
    rw [hdisp] at h3
    simp only [takeStreaming] at h3
    rw [if_neg h2, if_pos hpos] at h3
    omega
  constructor
  · rw [hdisp]
    simp only [takeStreaming]
    rw [if_neg h2, if_neg ho]
  · intro ts hts e he
    have hkp := calculateAndCut_kept_pairwise s.replies now hs
    rw [repliesLastTime] at hts
    cases hg : (calculateAndCut s.replies now).2.getLast? with
    | none => rw [hg] at hts; simp at hts
    | some x =>
      rw [hg] at hts
      have hxr : x.replied = ts := by
        simpa using hts
      rw [← hxr]
      exact sorted_oldest_le x _ hkp hg e he

/-- Witness for the amended C4 at the concrete scenario state. -/
theorem zero_release_wait_oldest_witness :
    c4State.takeByBlock = false ∧ c4State.currentBucketSize ≠ 0 ∧
      (c4State.replies.Pairwise fun a b => b.replied ≤ a.replied) ∧
      (take c4State 600000000).1 = 0 ∧
      ((take c4State 600000000).2.1 =
        (match repliesLastTime (calculateAndCut c4State.replies 600000000).2
          with
         | none => second
         | some ts => second - (600000000 - ts)) ∧
        ∀ ts,
          repliesLastTime (calculateAndCut c4State.replies 600000000).2 =
            some ts →
          ∀ e ∈ (calculateAndCut c4State.replies 600000000).2,
            ts ≤ e.replied) :=
  ⟨by decide, by decide, by decide, by decide,
    zero_release_wait_oldest c4State 600000000 (by decide) (by decide)
      (by decide) (by decide)⟩

/-! ## C7: `(0, 0)` means idle -/

/-- The penalty computed by `setNextBlockTime` is at least one nanosecond
whenever the recorded total exceeds the (positive, consistent) limit. -/
theorem setNextBlockTime_pos (ld : LimiterData) (now : Int) (k : Nat)
    (h3 : 1 ≤ ld.limit) (hf : ld.limitAsFloat = GoFloat.ofNat ld.limit)
    (hk : ld.limit < k) :
    1 ≤ (setNextBlockTime ld now (GoFloat.ofNat k)).1 := by
  simp only [setNextBlockTime]
  cases hl : repliesLastTime ld.replies with
  | some oldest =>
    dsimp only
    split_ifs <;> omega
  | none =>
    dsimp only
    rw [hf]
    simp only [GoFloat.ofNat, GoFloat.ofInt, GoFloat.div, goTrunc]
    have hL : (0 : Int) < (ld.limit : Int) := by exact_mod_cast h3
    have hsec : (0 : Int) < second := by decide
    have he : ((k : Int)) * (1 * second) = (k : Int) * second := by ring
    have hd : (1 : Int) * ((ld.limit : Int) * 1) = (ld.limit : Int) := by ring
    rw [he, hd]
    rw [Int.tdiv_eq_ediv
      (mul_nonneg (Int.natCast_nonneg k) (le_of_lt hsec)) (le_of_lt hL)]
    rw [Int.le_ediv_iff_mul_le hL, one_mul]
    calc (ld.limit : Int) ≤ (k : Int) := by exact_mod_cast le_of_lt hk
      _ ≤ (k : Int) * second :=
        le_mul_of_one_le_right (Int.natCast_nonneg k) (by decide)

/-- `takeBlockBody` returns `(0, 0)` exactly when the queue is empty and the
trailing-second ledger total is within the limit (for a consistent state
whose queued blocks all have positive size). -/
theorem takeBlockBody_idle_iff (ld : LimiterData) (now : Int)
    (h3 : 1 ≤ ld.limit) (hf : ld.limitAsFloat = GoFloat.ofNat ld.limit)
    (hpos : ∀ b ∈ ld.blocks, 0 < b.size) :
    ((takeBlockBody ld now).1 = 0 ∧ (takeBlockBody ld now).2.1 = 0) ↔
      (ld.blocks = [] ∧ (calculateAndCut ld.replies now).1 ≤ ld.limit) := by
  simp only [takeBlockBody]
  split_ifs with hc
  · cases hb : ld.blocks with
    | nil => simp [hc]
    | cons b rest =>
      have hbpos := hpos b (hb ▸ List.mem_cons_self b rest)
      dsimp only
      constructor
      · intro hcontr
        exfalso
        rcases hcontr with ⟨ha, _⟩
        split_ifs at ha <;> (dsimp only at ha; omega)
      · intro hcontr
        exact absurd hcontr.1 (by simp)
  · constructor
    · intro hcontr
      exfalso
      rcases hcontr with ⟨_, hd⟩
      have hp := setNextBlockTime_pos
        { ld with replies := (calculateAndCut ld.replies now).2 } now
        (calculateAndCut ld.replies now).1 h3 hf (not_le.mp hc)
      dsimp only at hd
      omega
    · intro hcontr
      exact absurd hcontr.2 hc

/-- C7 counterexample: in block mode, after `Add 0` the queue holds one
(zero-sized) pending block, yet `Take` returns `(0, 0)` — and it even
consumes the block, so the call is not free of side effects either. -/
theorem idle_iff_cex :
    (take (addOp (new 100 true) 0) 0).1 = 0 ∧
      (take (addOp (new 100 true) 0) 0).2.1 = 0 ∧
      (addOp (new 100 true) 0).blocks ≠ [] ∧
      (take (addOp (new 100 true) 0) 0).2.2.blocks = [] := by
  refine ⟨by decide, by decide, by decide, by decide⟩

/-- C7 amended: in streaming mode `Take` returns `(0, 0)` and leaves the
state untouched exactly when the bucket is empty; in block mode, provided
every queued block has positive size (and the state is consistent, as every
reachable state is), `Take` returns `(0, 0)` exactly when the queue is empty,
the trailing-second ledger total is at most the limit, and any recorded
next-eligible instant has already passed. -/
theorem idle_iff_amended :
    (∀ (s : LimiterData) (now : Int), s.takeByBlock = false → 1 ≤ s.limit →
      (take s now = (0, 0, s) ↔ s.currentBucketSize = 0)) ∧
    (∀ (s : LimiterData) (now : Int), s.takeByBlock = true → 1 ≤ s.limit →
      s.limitAsFloat = GoFloat.ofNat s.limit →
      (∀ b ∈ s.blocks, 0 < b.size) →
      (((take s now).1 = 0 ∧ (take s now).2.1 = 0) ↔
        (s.blocks = [] ∧ (calculateAndCut s.replies now).1 ≤ s.limit ∧
          ∀ nbt, s.nextBlockTime = some nbt → nbt ≤ now))) := by
  constructor
  · intro s now h1 h3
    have hdisp : take s now = takeStreaming s now := by simp [take, h1]
    constructor
    · intro heq
      by_contra hb
      rcases takeStreaming_progress s now hb h3 with hge | ⟨_, hd⟩
      · rw [← hdisp, heq] at hge
        dsimp only at hge
        omega
      · rw [← hdisp, heq] at hd
        dsimp only at hd
        omega
    · intro hb0
      rw [hdisp]
      simp [takeStreaming, hb0]
  · intro s now h1 h3 hf hpos
    have hdisp : take s now = doTakeByBlock s now := by simp [take, h1]
    rw [hdisp]
    cases hn : s.nextBlockTime with
    | none =>
      simp only [doTakeByBlock, hn]
      rw [takeBlockBody_idle_iff s now h3 hf hpos]
      constructor
      · rintro ⟨ha, hb⟩
        exact ⟨ha, hb, fun nbt hnbt => absurd hnbt (by simp)⟩
      · rintro ⟨ha, hb, _⟩
        exact ⟨ha, hb⟩
    | some nbt =>
      simp only [doTakeByBlock, hn]
      split_ifs with hlt
      · constructor
        · rintro ⟨_, hd⟩
          dsimp only at hd
          omega
        · rintro ⟨_, _, hnb⟩
          have := hnb nbt rfl
          omega
      · rw [takeBlockBody_idle_iff { s with nextBlockTime := none } now h3 hf
          hpos]
        constructor
        · rintro ⟨ha, hb⟩
          refine ⟨ha, hb, fun nbt' hnbt' => ?_⟩
          have : nbt = nbt' := Option.some.inj hnbt'
          omega
        · rintro ⟨ha, hb, _⟩
          exact ⟨ha, hb⟩

/-- Witness for the amended C7 at concrete states in each mode. -/
theorem idle_iff_amended_witness :
    (take (new 100 false) 5 = (0, 0, new 100 false) ↔
      (new 100 false).currentBucketSize = 0) ∧
    (((take (addOp (new 100 true) 7) 0).1 = 0 ∧
        (take (addOp (new 100 true) 7) 0).2.1 = 0) ↔
      ((addOp (new 100 true) 7).blocks = [] ∧
        (calculateAndCut (addOp (new 100 true) 7).replies 0).1 ≤
          (addOp (new 100 true) 7).limit ∧
        ∀ nbt, (addOp (new 100 true) 7).nextBlockTime = some nbt →
          nbt ≤ 0)) :=
  ⟨idle_iff_amended.1 (new 100 false) 5 (by decide) (by decide),
   idle_iff_amended.2 (addOp (new 100 true) 7) 0 (by decide) (by decide)
     (by decide) (by decide)⟩

end LeakyBucket
